import Mathlib

/-!
Shallow embedding of the `comprust` Huffman codec
(`src/huffman/mod.rs`, `src/huffman/tree.rs`).

Byte streams are `List Nat` (each element a byte value), text is
`List Char` (Rust `&str` is a sequence of Unicode scalar values).
`u32` arithmetic that can wrap is taken modulo `2 ^ 32`.

Rust's fallible/panicking control flow is made explicit:
`Option` is used where the only failure is a panic (`expect`, index
panic, failed `assert!`), and `DResult` distinguishes a recoverable
`io::Error` return (`err`) from a process abort (`panicked`).
-/

namespace Comprust

/-- `u32` modulus. -/
def u32Mod : Nat := 4294967296

/-- The tree node type `Link` from `tree.rs`:
`Leaf(u32, char)` or `Node(Box<Node>, char)` with the boxed
`Node { weight, left, right }` flattened into the constructor. -/
inductive Link where
  | leaf (weight : Nat) (ch : Char)
  | node (weight : Nat) (left : Link) (right : Link) (ch : Char)
deriving DecidableEq, Repr

/-- `Link::weight`. -/
def Link.weight : Link → Nat
  | .leaf w _ => w
  | .node w _ _ _ => w

/-- `Link::char`: the representative character used to break weight ties. -/
def Link.char : Link → Char
  | .leaf _ c => c
  | .node _ _ _ c => c

/-- Number of nodes of the tree rooted at a link (a fuel measure). -/
def Link.size : Link → Nat
  | .leaf _ _ => 1
  | .node _ l r _ => 1 + l.size + r.size

/-- The comparison key of `impl Ord for Link`: `(weight, char)`. -/
def keyOf (l : Link) : Nat × Nat := (l.weight, l.char.toNat)

/-- Strict lexicographic order on comparison keys.  `BinaryHeap<Link>`
with the reversed `Ord` of `tree.rs` pops the `keyLt`-least link. -/
def keyLt (a b : Nat × Nat) : Prop :=
  a.1 < b.1 ∨ (a.1 = b.1 ∧ a.2 < b.2)

instance (a b : Nat × Nat) : Decidable (keyLt a b) := by
  unfold keyLt; infer_instance

/-- Pop the least link (leftmost among several occurrences of the least
key).  This refines `BinaryHeap::pop`; on heaps whose links have
pairwise distinct keys — the only states `from_counts` reaches — the
heap's pop is exactly the unique least element. -/
def popMin : List Link → Option (Link × List Link)
  | [] => none
  | x :: xs =>
    match popMin xs with
    | none => some (x, [])
    | some (m, rest) =>
      if keyLt (keyOf m) (keyOf x) then some (m, x :: rest) else some (x, xs)

/-- One merge of `from_counts`: `right` is the first pop (smaller), `left`
the second; the new node's weight is the `u32` sum and its tie-break
character is `left.char()`. -/
def mergeLink (left right : Link) : Link :=
  .node ((left.weight + right.weight) % u32Mod) left right left.char

/-- The `while heap.len() > 1` loop of `HuffmanTree::from_counts`, with
fuel (the initial number of links is always enough fuel). -/
def buildLoop : Nat → List Link → Option Link
  | 0, _ => none
  | fuel + 1, links =>
    match popMin links with
    | none => none
    | some (right, rest1) =>
      match popMin rest1 with
      | none => some right
      | some (left, rest2) => buildLoop fuel (mergeLink left right :: rest2)

/-- `HuffmanTree { root, counts }`.  The `HashMap<char, u32>` is carried
as an association list with distinct keys; every use either sorts the
keys (`serialize`) or is proved independent of their order. -/
structure HuffmanTree where
  root : Link
  counts : List (Char × Nat)
deriving DecidableEq, Repr

/-- `HuffmanTree::from_counts`: one leaf per entry, then the merge loop.
`none` is the `None` of the source (empty table). -/
def fromCounts (counts : List (Char × Nat)) : Option HuffmanTree :=
  let leaves := counts.map (fun p => Link.leaf p.2 p.1)
  (buildLoop leaves.length leaves).map (fun r => { root := r, counts := counts })

/-- `*map.entry(c).or_insert(0) += 1` on an association list (u32 add). -/
def addChar (c : Char) : List (Char × Nat) → List (Char × Nat)
  | [] => [(c, 1)]
  | (k, v) :: rest =>
    if k = c then (k, (v + 1) % u32Mod) :: rest else (k, v) :: addChar c rest

/-- `count_chars` of `tree.rs` (the map in first-occurrence order: one
fixed representative of the `HashMap`'s arbitrary iteration order). -/
def countChars (text : List Char) : List (Char × Nat) :=
  text.foldl (fun m c => addChar c m) []

/-- UTF-8 encoding of one scalar value (`char` → `str` bytes). -/
def utf8EncodeChar (c : Char) : List Nat :=
  let n := c.toNat
  if n < 128 then [n]
  else if n < 2048 then [192 + n / 64, 128 + n % 64]
  else if n < 65536 then [224 + n / 4096, 128 + n / 64 % 64, 128 + n % 64]
  else [240 + n / 262144, 128 + n / 4096 % 64, 128 + n / 64 % 64, 128 + n % 64]

/-- UTF-8 continuation byte test. -/
def isCont (b : Nat) : Bool := 128 ≤ b && b ≤ 191

/-- Validating UTF-8 decoder: the behaviour of `String::from_utf8`
(rejecting overlong forms, surrogates and out-of-range sequences),
returning the decoded scalar values. -/
def utf8Decode : List Nat → Option (List Char)
  | [] => some []
  | b :: rest =>
    if b < 128 then
      (utf8Decode rest).map (fun cs => Char.ofNat b :: cs)
    else if 194 ≤ b && b ≤ 223 then
      match rest with
      | b2 :: rest2 =>
        if isCont b2 then
          (utf8Decode rest2).map (fun cs => Char.ofNat ((b - 192) * 64 + (b2 - 128)) :: cs)
        else none
      | [] => none
    else if 224 ≤ b && b ≤ 239 then
      match rest with
      | b2 :: b3 :: rest3 =>
        let lowOk : Bool :=
          if b = 224 then 160 ≤ b2 && b2 ≤ 191
          else if b = 237 then 128 ≤ b2 && b2 ≤ 159
          else isCont b2
        if lowOk && isCont b3 then
          (utf8Decode rest3).map
            (fun cs => Char.ofNat ((b - 224) * 4096 + (b2 - 128) * 64 + (b3 - 128)) :: cs)
        else none
      | _ => none
    else if 240 ≤ b && b ≤ 244 then
      match rest with
      | b2 :: b3 :: b4 :: rest4 =>
        let lowOk : Bool :=
          if b = 240 then 144 ≤ b2 && b2 ≤ 191
          else if b = 244 then 128 ≤ b2 && b2 ≤ 143
          else isCont b2
        if lowOk && isCont b3 && isCont b4 then
          (utf8Decode rest4).map
            (fun cs =>
              Char.ofNat ((b - 240) * 262144 + (b2 - 128) * 4096 + (b3 - 128) * 64 + (b4 - 128)) :: cs)
        else none
      | _ => none
    else none

/-- `u32::to_be_bytes` (of `n` truncated to `u32`). -/
def toBe32 (n : Nat) : List Nat :=
  [n / 16777216 % 256, n / 65536 % 256, n / 256 % 256, n % 256]

/-- Insertion step of an ascending sort on characters. -/
def insertChar (c : Char) : List Char → List Char
  | [] => [c]
  | x :: xs => if c.toNat ≤ x.toNat then c :: x :: xs else x :: insertChar c xs

/-- `chars.sort()` on the key vector (code-point ascending). -/
def sortChars (l : List Char) : List Char := l.foldr insertChar []

/-- `self.counts[&c]` (keys come from the map, so the default is never
reached on the source's inputs). -/
def lookupCount (counts : List (Char × Nat)) (c : Char) : Nat :=
  match counts with
  | [] => 0
  | (k, v) :: rest => if k = c then v else lookupCount rest c

/-- `HuffmanTree::serialize`: 4-byte big-endian byte length of the
ascending-sorted key string, the string's UTF-8 bytes, then one 4-byte
big-endian count per key in the same order. -/
def serializeTree (t : HuffmanTree) : List Nat :=
  let chars := sortChars (t.counts.map Prod.fst)
  let charsBytes := chars.flatMap utf8EncodeChar
  toBe32 charsBytes.length ++ charsBytes ++
    chars.flatMap (fun c => toBe32 (lookupCount t.counts c))

/-- `HashMap::insert` on the association list (replace if present). -/
def insertCode (ch : Char) (code : List Bool) (codes : Char → Option (List Bool)) :
    Char → Option (List Bool) :=
  fun c => if c = ch then some code else codes c

/-- The explicit-stack loop of `build_dictionary`.  The head of the list
is the top of the Rust `Vec` (its `pop` end); fuel `root.size` always
suffices since each iteration removes one tree node from the frontier. -/
def dictFuel : Nat → List (Link × List Bool) → (Char → Option (List Bool)) →
    Char → Option (List Bool)
  | _, [], codes => codes
  | 0, _ :: _, codes => codes
  | fuel + 1, (lk, code) :: rest, codes =>
    match lk with
    | .leaf _ ch => dictFuel fuel rest (insertCode ch code codes)
    | .node _ l r _ =>
      dictFuel fuel ((r, code ++ [true]) :: (l, code ++ [false]) :: rest) codes

/-- `build_dictionary`: depth-first collection of the path (left = `false`,
right = `true`) to each leaf. -/
def buildDictionary (t : HuffmanTree) : Char → Option (List Bool) :=
  dictFuel t.root.size [(t.root, [])] (fun _ => none)

/-- `encode_with_dictionary`: concatenate each character's code;
`none` models the `dict[&c]` index panic on a missing key. -/
def encodeWithDict : List Char → (Char → Option (List Bool)) → Option (List Bool)
  | [], _ => some []
  | c :: cs, dict =>
    match dict c, encodeWithDict cs dict with
    | some code, some rest => some (code ++ rest)
    | _, _ => none

/-- One packed byte from up to eight bits, least-significant bit first
(the `Lsb0` order of the `bitvec` buffer). -/
def byteOfBits (bits : List Bool) : Nat :=
  bits.foldr (fun b acc => (if b then 1 else 0) + 2 * acc) 0

/-- `data.read_to_end(&mut buffer)`: the bit vector drained into bytes,
eight bits at a time, LSB-first within each byte (with fuel). -/
def bitsToBytes : Nat → List Bool → List Nat
  | _, [] => []
  | 0, _ :: _ => []
  | fuel + 1, bits => byteOfBits (bits.take 8) :: bitsToBytes fuel (bits.drop 8)

/-- `huffman::encode`, producing the framed output bytes and the
returned pre-padding bit count.  `none` models a panic: the
`expect` on an empty-text tree, the dictionary index panic, or the
`assert!(data.is_empty())` (the final check is provably always taken
since padding reaches a multiple of eight). -/
def encode (text : List Char) : Option (List Nat × Nat) :=
  match fromCounts (countChars text) with
  | none => none
  | some tree =>
    match encodeWithDict text (buildDictionary tree) with
    | none => none
    | some bits =>
      let numBits := bits.length
      let pad := if numBits % 8 > 0 then 8 - numBits % 8 else 0
      let data := bits ++ List.replicate pad true
      if data.length % 8 = 0 then
        some (serializeTree tree ++ [pad] ++ bitsToBytes data.length data, numBits)
      else none

/-- Result of an operation that can return `Err` (recoverable, `err`) or
abort the process (`panicked`). -/
inductive DResult (α : Type) where
  | ok (val : α)
  | err
  | panicked
deriving DecidableEq, Repr

/-- `u32::from_be_bytes`. -/
def fromBe32 (b0 b1 b2 b3 : Nat) : Nat :=
  ((b0 * 256 + b1) * 256 + b2) * 256 + b3

/-- The per-character count reads of `deserialize` (the closure over
`chars.chars()`); `none` is the `.unwrap()` panic on a short read. -/
def readCounts : List Char → List Nat → Option (List (Char × Nat) × List Nat)
  | [], rest => some ([], rest)
  | c :: cs, b0 :: b1 :: b2 :: b3 :: rest =>
    (readCounts cs rest).map (fun pr => ((c, fromBe32 b0 b1 b2 b3) :: pr.1, pr.2))
  | _ :: _, _ => none

/-- `HashMap::insert` used by `collect::<HashMap<_, _>>`: a repeated key
keeps its position and takes the later value. -/
def insertAssoc (k : Char) (v : Nat) : List (Char × Nat) → List (Char × Nat)
  | [] => [(k, v)]
  | (k', v') :: rest =>
    if k' = k then (k', v) :: rest else (k', v') :: insertAssoc k v rest

/-- Collect the read `(char, count)` pairs into the map. -/
def collectCounts (pairs : List (Char × Nat)) : List (Char × Nat) :=
  pairs.foldl (fun m p => insertAssoc p.1 p.2 m) []

/-- `HuffmanTree::deserialize`.  Short reads behind `?` are `err`;
the `String::from_utf8(..).unwrap()` and the in-closure
`read_exact(..).unwrap()` are `panicked`; an empty reconstructed table
is the `ok_or` `err`.  Returns the unread remainder of the stream. -/
def deserializeTree : List Nat → DResult (HuffmanTree × List Nat)
  | b0 :: b1 :: b2 :: b3 :: rest =>
    let n := fromBe32 b0 b1 b2 b3
    if rest.length < n then .err
    else
      match utf8Decode (rest.take n) with
      | none => .panicked
      | some chars =>
        match readCounts chars (rest.drop n) with
        | none => .panicked
        | some (pairs, rest2) =>
          match fromCounts (collectCounts pairs) with
          | none => .err
          | some tree => .ok (tree, rest2)
  | _ => .err

/-- The eight bits of one byte, least-significant first (`Lsb0`). -/
def bitsOfByte (b : Nat) : List Bool :=
  [b.testBit 0, b.testBit 1, b.testBit 2, b.testBit 3,
   b.testBit 4, b.testBit 5, b.testBit 6, b.testBit 7]

/-- First half of the decode loop body: at a leaf, emit its character
and hop back to the root. -/
def stepEmit (root current : Link) : List Char × Link :=
  match current with
  | .leaf _ ch => ([ch], root)
  | other => ([], other)

/-- Second half of the loop body: at an internal node, `true` goes
right and `false` goes left. -/
def stepMove (cur : Link) (b : Bool) : Link :=
  match cur with
  | .node _ l r _ => if b then r else l
  | other => other

/-- The `for b in &bits[0..num_data_bits]` loop of `decode`: emitted
characters plus the final walk position. -/
def walkLoop (root : Link) : Link → List Bool → List Char × Link
  | current, [] => ([], current)
  | current, b :: bs =>
    let e := stepEmit root current
    let rest := walkLoop root (stepMove e.2 b) bs
    (e.1 ++ rest.1, rest.2)

/-- `huffman::decode`: deserialize the tree, read the pad byte, unpack
the remaining bytes LSB-first, walk the tree over the usable bits and
emit the final leaf.  `panicked` covers the
`bits.len() - bits_padded` usize underflow and the final
`panic!`-on-internal-node; `err` covers the fallible reads. -/
def decode (input : List Nat) : DResult (List Char) :=
  match deserializeTree input with
  | .err => .err
  | .panicked => .panicked
  | .ok (tree, rest) =>
    match rest with
    | [] => .err
    | pad :: payload =>
      let bits := payload.flatMap bitsOfByte
      if bits.length < pad then .panicked
      else
        let res := walkLoop tree.root tree.root (bits.take (bits.length - pad))
        match res.2 with
        | .leaf _ ch => .ok (res.1 ++ [ch])
        | .node _ _ _ _ => .panicked

/-! ### Order lemmas for the heap key -/

theorem keyLt_irrefl (a : Nat × Nat) : ¬ keyLt a a := by
  obtain ⟨a1, a2⟩ := a
  simp [keyLt]

theorem keyLt_trans {a b c : Nat × Nat} (h1 : keyLt a b) (h2 : keyLt b c) : keyLt a c := by
  obtain ⟨a1, a2⟩ := a
  obtain ⟨b1, b2⟩ := b
  obtain ⟨c1, c2⟩ := c
  simp only [keyLt] at h1 h2 ⊢
  omega

theorem keyLt_asymm {a b : Nat × Nat} (h : keyLt a b) : ¬ keyLt b a := by
  intro h'
  exact keyLt_irrefl a (keyLt_trans h h')

theorem keyLt_trichotomy (a b : Nat × Nat) : keyLt a b ∨ a = b ∨ keyLt b a := by
  obtain ⟨a1, a2⟩ := a
  obtain ⟨b1, b2⟩ := b
  simp only [keyLt, Prod.mk.injEq]
  omega

/-! ### Properties of `popMin` -/

theorem popMin_eq_none {l : List Link} : popMin l = none ↔ l = [] := by
  cases l with
  | nil => simp [popMin]
  | cons x xs =>
    simp only [popMin]
    cases h : popMin xs with
    | none => simp
    | some p =>
      obtain ⟨m, rest⟩ := p
      by_cases hlt : keyLt (keyOf m) (keyOf x) <;> simp [hlt]

theorem popMin_perm {l : List Link} {m : Link} {r : List Link}
    (h : popMin l = some (m, r)) : l.Perm (m :: r) := by
  induction l generalizing m r with
  | nil => simp [popMin] at h
  | cons x xs ih =>
    simp only [popMin] at h
    cases hxs : popMin xs with
    | none =>
      rw [hxs] at h
      obtain ⟨rfl, rfl⟩ : x = m ∧ [] = r := by
        simpa using h
      have : xs = [] := popMin_eq_none.mp hxs
      subst this
      exact List.Perm.refl _
    | some p =>
      obtain ⟨m', rest⟩ := p
      rw [hxs] at h
      replace h : (if keyLt (keyOf m') (keyOf x) then some (m', x :: rest)
          else some (x, xs)) = some (m, r) := h
      by_cases hlt : keyLt (keyOf m') (keyOf x)
      · rw [if_pos hlt] at h
        obtain ⟨rfl, rfl⟩ : m' = m ∧ x :: rest = r := by
          simpa using h
        exact ((ih hxs).cons x).trans (List.Perm.swap _ x rest)
      · rw [if_neg hlt] at h
        obtain ⟨rfl, rfl⟩ : x = m ∧ xs = r := by
          simpa using h
        exact List.Perm.refl _

theorem popMin_mem {l : List Link} {m : Link} {r : List Link}
    (h : popMin l = some (m, r)) : m ∈ l :=
  (popMin_perm h).mem_iff.mpr (List.mem_cons_self m r)

theorem popMin_length {l : List Link} {m : Link} {r : List Link}
    (h : popMin l = some (m, r)) : l.length = r.length + 1 :=
  (popMin_perm h).length_eq

theorem popMin_min {l : List Link} {m : Link} {r : List Link}
    (h : popMin l = some (m, r)) : ∀ x ∈ l, ¬ keyLt (keyOf x) (keyOf m) := by
  induction l generalizing m r with
  | nil => simp [popMin] at h
  | cons x xs ih =>
    simp only [popMin] at h
    cases hxs : popMin xs with
    | none =>
      rw [hxs] at h
      obtain ⟨rfl, rfl⟩ : x = m ∧ [] = r := by
        simpa using h
      have : xs = [] := popMin_eq_none.mp hxs
      subst this
      intro y hy
      rw [List.mem_singleton] at hy
      subst hy
      exact keyLt_irrefl _
    | some p =>
      obtain ⟨m', rest⟩ := p
      rw [hxs] at h
      replace h : (if keyLt (keyOf m') (keyOf x) then some (m', x :: rest)
          else some (x, xs)) = some (m, r) := h
      by_cases hlt : keyLt (keyOf m') (keyOf x)
      · rw [if_pos hlt] at h
        obtain ⟨rfl, rfl⟩ : m' = m ∧ x :: rest = r := by
          simpa using h
        intro y hy
        rcases List.mem_cons.mp hy with rfl | hy'
        · exact keyLt_asymm hlt
        · exact ih hxs y hy'
      · rw [if_neg hlt] at h
        obtain ⟨rfl, rfl⟩ : x = m ∧ xs = r := by
          simpa using h
        intro y hy
        rcases List.mem_cons.mp hy with rfl | hy'
        · exact keyLt_irrefl _
        · intro hyx
          rcases keyLt_trichotomy (keyOf m') (keyOf x) with h1 | h1 | h1
          · exact hlt h1
          · exact ih hxs y hy' (h1 ▸ hyx)
          · exact ih hxs y hy' (keyLt_trans hyx h1)

/-- Characters determine links inside a char-nodup heap state. -/
theorem eq_of_mem_of_char_eq {l : List Link} (hnd : (l.map Link.char).Nodup)
    {x y : Link} (hx : x ∈ l) (hy : y ∈ l) (hc : x.char = y.char) : x = y :=
  List.inj_on_of_nodup_map hnd hx hy hc

/-- On permuted char-nodup heap states, `popMin` extracts the same link
and permuted remainders: the heap's behaviour does not depend on
insertion order. -/
theorem popMin_congr {l₁ l₂ : List Link} (hperm : l₁.Perm l₂)
    (hnd : (l₁.map Link.char).Nodup)
    {m₁ m₂ : Link} {r₁ r₂ : List Link}
    (h₁ : popMin l₁ = some (m₁, r₁)) (h₂ : popMin l₂ = some (m₂, r₂)) :
    m₁ = m₂ ∧ r₁.Perm r₂ := by
  have hm₁ : m₁ ∈ l₂ := hperm.mem_iff.mp (popMin_mem h₁)
  have hm₂ : m₂ ∈ l₁ := hperm.mem_iff.mpr (popMin_mem h₂)
  have hk₁ : ¬ keyLt (keyOf m₂) (keyOf m₁) := popMin_min h₁ m₂ hm₂
  have hk₂ : ¬ keyLt (keyOf m₁) (keyOf m₂) := popMin_min h₂ m₁ hm₁
  have hkey : keyOf m₁ = keyOf m₂ := by
    rcases keyLt_trichotomy (keyOf m₁) (keyOf m₂) with h | h | h
    · exact absurd h hk₂
    · exact h
    · exact absurd h hk₁
  have hchar : m₁.char = m₂.char := by
    have := congrArg Prod.snd hkey
    simp only [keyOf] at this
    exact Char.ext (UInt32.ext this)
  have hm : m₁ = m₂ := eq_of_mem_of_char_eq hnd (popMin_mem h₁) hm₂ hchar
  subst hm
  refine ⟨rfl, ?_⟩
  have : (m₁ :: r₁).Perm (m₁ :: r₂) :=
    ((popMin_perm h₁).symm.trans hperm).trans (popMin_perm h₂)
  exact this.cons_inv

theorem popMin_nodup {l : List Link} {m : Link} {r : List Link}
    (h : popMin l = some (m, r)) (hnd : (l.map Link.char).Nodup) :
    ((m :: r).map Link.char).Nodup :=
  (hnd.perm ((popMin_perm h).map Link.char))

/-! Unfolding equations for the merge loop. -/

theorem buildLoop_popNone {fuel : Nat} {links : List Link}
    (h : popMin links = none) : buildLoop (fuel + 1) links = none := by
  simp only [buildLoop, h]

theorem buildLoop_popSingle {fuel : Nat} {links : List Link} {r : Link} {rest : List Link}
    (h1 : popMin links = some (r, rest)) (h2 : popMin rest = none) :
    buildLoop (fuel + 1) links = some r := by
  simp only [buildLoop, h1, h2]

theorem buildLoop_popMerge {fuel : Nat} {links : List Link}
    {r : Link} {rest1 : List Link} {l : Link} {rest2 : List Link}
    (h1 : popMin links = some (r, rest1)) (h2 : popMin rest1 = some (l, rest2)) :
    buildLoop (fuel + 1) links = buildLoop fuel (mergeLink l r :: rest2) := by
  simp only [buildLoop, h1, h2]

/-- The merge loop is insertion-order independent on char-nodup states. -/
theorem buildLoop_congr :
    ∀ (fuel : Nat) (l₁ l₂ : List Link), l₁.Perm l₂ → (l₁.map Link.char).Nodup →
      buildLoop fuel l₁ = buildLoop fuel l₂ := by
  intro fuel
  induction fuel with
  | zero => intro l₁ l₂ _ _; rfl
  | succ fuel ih =>
    intro l₁ l₂ hperm hnd
    cases h₁ : popMin l₁ with
    | none =>
      have he : l₁ = [] := popMin_eq_none.mp h₁
      subst he
      have : l₂ = [] := hperm.symm.eq_nil
      subst this
      rfl
    | some p₁ =>
      obtain ⟨right₁, rest₁⟩ := p₁
      cases h₂ : popMin l₂ with
      | none =>
        have he : l₂ = [] := popMin_eq_none.mp h₂
        subst he
        have : l₁ = [] := hperm.eq_nil
        simp [this, popMin] at h₁
      | some p₂ =>
        obtain ⟨right₂, rest₂⟩ := p₂
        obtain ⟨rfl, hrestp⟩ := popMin_congr hperm hnd h₁ h₂
        have hnd₁ : ((right₁ :: rest₁).map Link.char).Nodup := popMin_nodup h₁ hnd
        have hndr : (rest₁.map Link.char).Nodup := by
          simpa using hnd₁.of_cons
        cases g₁ : popMin rest₁ with
        | none =>
          have he : rest₁ = [] := popMin_eq_none.mp g₁
          subst he
          have : rest₂ = [] := hrestp.symm.eq_nil
          subst this
          rw [buildLoop_popSingle h₁ g₁, buildLoop_popSingle h₂ rfl]
        | some q₁ =>
          obtain ⟨left₁, rest₁'⟩ := q₁
          cases g₂ : popMin rest₂ with
          | none =>
            have he : rest₂ = [] := popMin_eq_none.mp g₂
            subst he
            have : rest₁ = [] := hrestp.eq_nil
            simp [this, popMin] at g₁
          | some q₂ =>
            obtain ⟨left₂, rest₂'⟩ := q₂
            obtain ⟨rfl, hrestp'⟩ := popMin_congr hrestp hndr g₁ g₂
            rw [buildLoop_popMerge h₁ g₁, buildLoop_popMerge h₂ g₂]
            apply ih
            · exact hrestp'.cons _
            · have hl₁ : l₁.Perm (right₁ :: left₁ :: rest₁') :=
                (popMin_perm h₁).trans ((popMin_perm g₁).cons right₁)
              have hnd2 : ((right₁ :: left₁ :: rest₁').map Link.char).Nodup :=
                hnd.perm (hl₁.map Link.char)
              have h2 : ((left₁ :: rest₁').map Link.char).Nodup := by
                simpa using hnd2.of_cons
              simpa [mergeLink, Link.char] using h2

/-- Claim C3 helper: `from_counts` depends only on the content of the
frequency table, not on iteration order. -/
theorem fromCounts_root_congr (e₁ e₂ : List (Char × Nat)) (hperm : e₁.Perm e₂)
    (hnd : (e₁.map Prod.fst).Nodup) :
    Option.map HuffmanTree.root (fromCounts e₁) =
      Option.map HuffmanTree.root (fromCounts e₂) := by
  have hroot : ∀ e : List (Char × Nat),
      Option.map HuffmanTree.root (fromCounts e) =
        buildLoop (e.map (fun p => Link.leaf p.2 p.1)).length
          (e.map (fun p => Link.leaf p.2 p.1)) := by
    intro e
    simp only [fromCounts, Option.map_map]
    have hid : (HuffmanTree.root ∘ fun r => HuffmanTree.mk r e) = id := rfl
    rw [hid, Option.map_id]
    rfl
  rw [hroot, hroot]
  have hlperm : (e₁.map (fun p => Link.leaf p.2 p.1)).Perm
      (e₂.map (fun p => Link.leaf p.2 p.1)) := hperm.map _
  have hlen : (e₁.map (fun p => Link.leaf p.2 p.1)).length =
      (e₂.map (fun p => Link.leaf p.2 p.1)).length := hlperm.length_eq
  rw [hlen]
  apply buildLoop_congr _ _ _ hlperm
  have : (e₁.map (fun p => Link.leaf p.2 p.1)).map Link.char = e₁.map Prod.fst := by
    simp [List.map_map, Function.comp, Link.char]
  rw [this]
  exact hnd

/-! ### Weight conservation and leaf content (C8) -/

/-- Sum of the leaf weights of a subtree. -/
def leafSum : Link → Nat
  | .leaf w _ => w
  | .node _ l r _ => leafSum l + leafSum r

/-- The leaves of a subtree, left to right. -/
def leavesOf : Link → List Link
  | .leaf w c => [.leaf w c]
  | .node _ l r _ => leavesOf l ++ leavesOf r

/-- Every stored weight is exactly the (unwrapped) sum of its subtree's
leaf weights. -/
def consistent : Link → Prop
  | .leaf _ _ => True
  | .node w l r _ => w = leafSum l + leafSum r ∧ consistent l ∧ consistent r

theorem consistent_weight {x : Link} (h : consistent x) : x.weight = leafSum x := by
  cases x with
  | leaf w c => rfl
  | node w l r c => exact h.1

theorem leafSum_mergeLink (l r : Link) : leafSum (mergeLink l r) = leafSum l + leafSum r := rfl

/-- Through the merge loop, weights stay consistent, the total leaf
weight is conserved, and the multiset of leaves is preserved —
provided the total fits in a `u32` so no addition wraps. -/
theorem buildLoop_conserves :
    ∀ (fuel : Nat) (links : List Link) (root : Link),
      buildLoop fuel links = some root →
      (∀ x ∈ links, consistent x) →
      (links.map leafSum).sum < u32Mod →
      consistent root ∧ leafSum root = (links.map leafSum).sum ∧
        (leavesOf root).Perm (links.flatMap leavesOf) := by
  intro fuel
  induction fuel with
  | zero => intro links root h; exact absurd h (by simp [buildLoop])
  | succ fuel ih =>
    intro links root h hcons hbound
    cases h₁ : popMin links with
    | none => rw [buildLoop_popNone h₁] at h; exact absurd h (by simp)
    | some p₁ =>
      obtain ⟨right, rest1⟩ := p₁
      cases g₁ : popMin rest1 with
      | none =>
        rw [buildLoop_popSingle h₁ g₁] at h
        obtain rfl : right = root := by simpa using h
        have he : rest1 = [] := popMin_eq_none.mp g₁
        subst he
        have hperm : links.Perm [right] := popMin_perm h₁
        refine ⟨hcons right (popMin_mem h₁), ?_, ?_⟩
        · have := (hperm.map leafSum).sum_eq
          simpa using this.symm
        · have := (hperm.flatMap_right leavesOf).symm
          simpa using this
      | some q₁ =>
        obtain ⟨left, rest2⟩ := q₁
        rw [buildLoop_popMerge h₁ g₁] at h
        have hlperm : links.Perm (right :: left :: rest2) :=
          (popMin_perm h₁).trans ((popMin_perm g₁).cons right)
        have hmemL : left ∈ links := hlperm.mem_iff.mpr (by simp)
        have hmemR : right ∈ links := popMin_mem h₁
        have hsums : (links.map leafSum).sum =
            leafSum right + (leafSum left + ((rest2.map leafSum).sum)) := by
          have := (hlperm.map leafSum).sum_eq
          simpa using this
        have hconsL : consistent left := hcons left hmemL
        have hconsR : consistent right := hcons right hmemR
        have hnowrap : leafSum left + leafSum right < u32Mod := by omega
        have hconsM : consistent (mergeLink left right) := by
          refine ⟨?_, hconsL, hconsR⟩
          rw [consistent_weight hconsL, consistent_weight hconsR,
            Nat.mod_eq_of_lt hnowrap]
        have hcons' : ∀ x ∈ mergeLink left right :: rest2, consistent x := by
          intro x hx
          rcases List.mem_cons.mp hx with rfl | hx'
          · exact hconsM
          · exact hcons x (hlperm.mem_iff.mpr (by simp [hx']))
        have hsum' : ((mergeLink left right :: rest2).map leafSum).sum =
            (links.map leafSum).sum := by
          simp only [List.map_cons, List.sum_cons, leafSum_mergeLink]
          omega
        obtain ⟨hc, hs, hl⟩ := ih (mergeLink left right :: rest2) root h hcons'
          (by rw [hsum']; exact hbound)
        refine ⟨hc, by rw [hs, hsum'], ?_⟩
        refine hl.trans ?_
        have h1 : ((mergeLink left right :: rest2).flatMap leavesOf).Perm
            ((right :: left :: rest2).flatMap leavesOf) := by
          simp only [List.flatMap_cons]
          have hM : leavesOf (mergeLink left right) = leavesOf left ++ leavesOf right := rfl
          rw [hM]
          have h2 : ((leavesOf left ++ leavesOf right) ++ rest2.flatMap leavesOf).Perm
              ((leavesOf right ++ leavesOf left) ++ rest2.flatMap leavesOf) :=
            List.perm_append_comm.append_right _
          simpa [List.append_assoc] using h2
        exact h1.trans (hlperm.flatMap_right leavesOf).symm

/-! ### Child ordering (C9) -/

/-- At every internal node the right child does not exceed the left in
the `(weight, symbol)` order: the first (smallest) heap pop became the
right child and the second pop the left. -/
def childOrder : Link → Prop
  | .leaf _ _ => True
  | .node _ l r _ => ¬ keyLt (keyOf l) (keyOf r) ∧ childOrder l ∧ childOrder r

theorem buildLoop_childOrder :
    ∀ (fuel : Nat) (links : List Link) (root : Link),
      buildLoop fuel links = some root →
      (∀ x ∈ links, childOrder x) →
      childOrder root := by
  intro fuel
  induction fuel with
  | zero => intro links root h; exact absurd h (by simp [buildLoop])
  | succ fuel ih =>
    intro links root h hord
    cases h₁ : popMin links with
    | none => rw [buildLoop_popNone h₁] at h; exact absurd h (by simp)
    | some p₁ =>
      obtain ⟨right, rest1⟩ := p₁
      cases g₁ : popMin rest1 with
      | none =>
        rw [buildLoop_popSingle h₁ g₁] at h
        obtain rfl : right = root := by simpa using h
        exact hord right (popMin_mem h₁)
      | some q₁ =>
        obtain ⟨left, rest2⟩ := q₁
        rw [buildLoop_popMerge h₁ g₁] at h
        have hlperm : links.Perm (right :: left :: rest2) :=
          (popMin_perm h₁).trans ((popMin_perm g₁).cons right)
        have hmemL : left ∈ links := hlperm.mem_iff.mpr (by simp)
        have hordM : childOrder (mergeLink left right) := by
          refine ⟨popMin_min h₁ left hmemL, hord left hmemL, hord right (popMin_mem h₁)⟩
        refine ih (mergeLink left right :: rest2) root h ?_
        intro x hx
        rcases List.mem_cons.mp hx with rfl | hx'
        · exact hordM
        · exact hord x (hlperm.mem_iff.mpr (by simp [hx']))

/-! ### Dictionary soundness and prefix-freeness (C7) -/

/-- Follow a bit path from a link: `false` left, `true` right; a path
that continues past a leaf is invalid. -/
def walk : Link → List Bool → Option Link
  | lk, [] => some lk
  | .leaf _ _, _ :: _ => none
  | .node _ l r _, b :: bs => walk (if b then r else l) bs

theorem walk_append (lk : Link) (p q : List Bool) :
    walk lk (p ++ q) = (walk lk p).bind (fun m => walk m q) := by
  induction p generalizing lk with
  | nil => simp [walk]
  | cons b bs ih =>
    cases lk with
    | leaf w c => simp [walk]
    | node w l r c => simp only [List.cons_append, walk]; exact ih _

/-- Every code the dictionary loop has recorded is a root-to-leaf path
for its character, given that every frontier entry is the subtree at
its accumulated path. -/
theorem dictFuel_sound :
    ∀ (fuel : Nat) (frontier : List (Link × List Bool))
      (codes : Char → Option (List Bool)) (root : Link),
      (∀ pr ∈ frontier, walk root pr.2 = some pr.1) →
      (∀ c code, codes c = some code → ∃ w, walk root code = some (Link.leaf w c)) →
      ∀ c code, dictFuel fuel frontier codes c = some code →
        ∃ w, walk root code = some (Link.leaf w c) := by
  intro fuel
  induction fuel with
  | zero =>
    intro frontier codes root _ hcodes c code h
    cases frontier with
    | nil => exact hcodes c code h
    | cons pr rest => exact hcodes c code h
  | succ fuel ih =>
    intro frontier codes root hfront hcodes c code h
    cases frontier with
    | nil => exact hcodes c code h
    | cons pr rest =>
      obtain ⟨lk, code'⟩ := pr
      cases lk with
      | leaf w ch =>
        refine ih rest _ root (fun pr hpr => hfront pr (List.mem_cons_of_mem _ hpr)) ?_ c code
          (by simpa [dictFuel] using h)
        intro c' code'' hc'
        by_cases hch : c' = ch
        · subst hch
          obtain rfl : code' = code'' := by simpa [insertCode] using hc'
          exact ⟨w, hfront (Link.leaf w c', code') (by simp)⟩
        · exact hcodes c' code'' (by simpa [insertCode, hch] using hc')
      | node w l r ch =>
        have hw : walk root code' = some (Link.node w l r ch) :=
          hfront (Link.node w l r ch, code') (by simp)
        refine ih _ _ root ?_ hcodes c code (by simpa [dictFuel] using h)
        intro pr hpr
        rcases List.mem_cons.mp hpr with rfl | hpr'
        · rw [walk_append, hw]
          simp [walk]
        rcases List.mem_cons.mp hpr' with rfl | hpr''
        · rw [walk_append, hw]
          simp [walk]
        · exact hfront pr (List.mem_cons_of_mem _ hpr'')

/-- Dictionary entries of `build_dictionary` are root-to-leaf paths. -/
theorem buildDictionary_sound (t : HuffmanTree) (c : Char) (code : List Bool)
    (h : buildDictionary t c = some code) :
    ∃ w, walk t.root code = some (Link.leaf w c) := by
  refine dictFuel_sound t.root.size [(t.root, [])] _ t.root ?_ (by simp) c code h
  intro pr hpr
  rcases List.mem_singleton.mp hpr with rfl
  simp [walk]

/-! ### Decode success facts (C10) -/

theorem length_flatMap_bitsOfByte (payload : List Nat) :
    (payload.flatMap bitsOfByte).length = 8 * payload.length := by
  induction payload with
  | nil => rfl
  | cons b bs ih =>
    simp only [List.flatMap_cons, List.length_append, ih, bitsOfByte]
    simp [List.length_cons]
    omega

/-- A successful `decode` always emits at least the final leaf. -/
theorem decode_ok_nonempty (input : List Nat) (out : List Char)
    (h : decode input = DResult.ok out) : out ≠ [] := by
  simp only [decode] at h
  split at h
  · exact absurd h (by simp)
  · exact absurd h (by simp)
  · rename_i tree rest heq
    split at h
    · exact absurd h (by simp)
    · rename_i pad payload
      split at h
      · exact absurd h (by simp)
      · split at h
        · rename_i w ch hres
          simp only [DResult.ok.injEq] at h
          rw [← h]
          simp
        · exact absurd h (by simp)

/-- Deserializing the lone-leaf frame for symbol `a` with count 4
succeeds for any trailing bytes and leaves them unread. -/
theorem deserializeTree_lone (rest : List Nat) :
    deserializeTree (0 :: 0 :: 0 :: 1 :: 97 :: 0 :: 0 :: 0 :: 4 :: rest) =
      DResult.ok (⟨Link.leaf 4 'a', [('a', 4)]⟩, rest) := by
  have hn : fromBe32 0 0 0 1 = 1 := rfl
  simp only [deserializeTree, hn]
  rw [if_neg (by simp)]
  have htake : (97 :: 0 :: 0 :: 0 :: 4 :: rest).take 1 = [97] := rfl
  have hdrop : (97 :: 0 :: 0 :: 0 :: 4 :: rest).drop 1 = 0 :: 0 :: 0 :: 4 :: rest := rfl
  have hu : utf8Decode [97] = some ['a'] := by decide
  have hr : readCounts ['a'] (0 :: 0 :: 0 :: 4 :: rest) = some ([('a', 4)], rest) := by
    simp [readCounts, fromBe32]
  have hc : collectCounts [('a', 4)] = [('a', 4)] := by decide
  have hf : fromCounts [('a', 4)] =
      some ⟨Link.leaf 4 'a', [('a', 4)]⟩ := by decide
  simp only [htake, hdrop, hu, hr, hc, hf]

/-- With a lone-leaf tree and zero usable data bits — any pad byte equal
to eight times the payload length — `decode` emits the root symbol
exactly once. -/
theorem decode_loneLeaf_zero_bits (pad : Nat) (payload : List Nat)
    (h : pad = 8 * payload.length) :
    decode (0 :: 0 :: 0 :: 1 :: 97 :: 0 :: 0 :: 0 :: 4 :: pad :: payload) =
      DResult.ok ['a'] := by
  have hb : (payload.flatMap bitsOfByte).length = 8 * payload.length :=
    length_flatMap_bitsOfByte payload
  simp only [decode, deserializeTree_lone]
  rw [if_neg (by omega)]
  have ht : (payload.flatMap bitsOfByte).length - pad = 0 := by omega
  rw [ht]
  simp [walkLoop]

/-! ### Claim theorems -/

/-- C1: the spec requires `decode(encode(text)) == text` for every
non-empty text, in particular the single-symbol text `"aaaa"`.  The
code violates this: `encode "aaaa"` emits zero data bits with pad 0,
and `decode` of that buffer emits the lone symbol exactly once,
returning `"a"` instead of `"aaaa"`. -/
theorem claim_c1_roundtrip_fails_on_aaaa :
    encode ['a', 'a', 'a', 'a'] = some ([0, 0, 0, 1, 97, 0, 0, 0, 4, 0], 0) ∧
    decode [0, 0, 0, 1, 97, 0, 0, 0, 4, 0] = DResult.ok ['a'] ∧
    (['a'] : List Char) ≠ ['a', 'a', 'a', 'a'] := by
  decide

/-- C2: encoding `"aaaabbc"` yields exactly ten data bits
`0000101011` before padding (the returned reporting value), payload
bytes `[80, 255]` after padding with six 1-bits (LSB-first packing),
and the exact framed output
`[0,0,0,3, 97,98,99, 0,0,0,4, 0,0,0,2, 0,0,0,1, 6, 80, 255]`. -/
theorem claim_c2_format_stability :
    encode ['a', 'a', 'a', 'a', 'b', 'b', 'c'] =
      some ([0, 0, 0, 3, 97, 98, 99, 0, 0, 0, 4, 0, 0, 0, 2, 0, 0, 0, 1, 6, 80, 255], 10) ∧
    ((fromCounts (countChars ['a', 'a', 'a', 'a', 'b', 'b', 'c'])).bind
        (fun t => encodeWithDict ['a', 'a', 'a', 'a', 'b', 'b', 'c'] (buildDictionary t))) =
      some [false, false, false, false, true, false, true, false, true, true] ∧
    bitsToBytes 16 [false, false, false, false, true, false, true, false,
      true, true, true, true, true, true, true, true] = [80, 255] := by
  decide

/-- C3: for any two frequency tables with the same content (permuted
entry lists over distinct symbols), `from_counts` builds structurally
identical trees — insertion order into the priority queue is
irrelevant. -/
theorem claim_c3_tree_determinism (e₁ e₂ : List (Char × Nat))
    (hperm : e₁.Perm e₂) (hnd : (e₁.map Prod.fst).Nodup) :
    Option.map HuffmanTree.root (fromCounts e₁) =
      Option.map HuffmanTree.root (fromCounts e₂) :=
  fromCounts_root_congr e₁ e₂ hperm hnd

theorem claim_c3_tree_determinism_witness :
    ([(('a' : Char), (1 : Nat)), ('b', 2), ('c', 3)]).Perm [('c', 3), ('a', 1), ('b', 2)] ∧
    (([(('a' : Char), (1 : Nat)), ('b', 2), ('c', 3)]).map Prod.fst).Nodup ∧
    Option.map HuffmanTree.root (fromCounts [('a', 1), ('b', 2), ('c', 3)]) =
      Option.map HuffmanTree.root (fromCounts [('c', 3), ('a', 1), ('b', 2)]) :=
  ⟨by decide, by decide,
    claim_c3_tree_determinism [('a', 1), ('b', 2), ('c', 3)] [('c', 3), ('a', 1), ('b', 2)]
      (by decide) (by decide)⟩

/-- C4: the spec demands recoverable error values, never aborts; the
code panics instead.  `encode` of the empty text aborts through
`.expect`, `deserialize` aborts through `String::from_utf8(..).unwrap()`
on the invalid UTF-8 byte `255`, and `decode` aborts through
`panic!("Invalid code")` on a walk that ends inside an internal node. -/
theorem claim_c4_panics_on_malformed :
    encode [] = none ∧
    decode [0, 0, 0, 1, 255, 0, 0, 0, 1] = DResult.panicked ∧
    decode [0, 0, 0, 3, 97, 98, 99, 0, 0, 0, 4, 0, 0, 0, 2, 0, 0, 0, 1, 7, 255] =
      DResult.panicked := by
  decide

/-- C5: the spec requires a truncated payload to produce a
`TruncatedOrInvalidStream` error.  The code does not: dropping the
last payload byte of the valid `"aaaabbc"` buffer makes `decode`
*succeed* with the wrong output `"aa"`, and dropping the whole payload
makes it abort on the `bits.len() - bits_padded` underflow. -/
theorem claim_c5_truncation_not_detected :
    decode [0, 0, 0, 3, 97, 98, 99, 0, 0, 0, 4, 0, 0, 0, 2, 0, 0, 0, 1, 6, 80] =
      DResult.ok ['a', 'a'] ∧
    decode [0, 0, 0, 3, 97, 98, 99, 0, 0, 0, 4, 0, 0, 0, 2, 0, 0, 0, 1, 6] =
      DResult.panicked := by
  decide

/-- C6 counterexample: merging the leaves `b:2` and `c:1`, the
smaller-weight child is `c`, yet the new internal node's tie-break
symbol is `'b'` — the claim's "smaller-weight child's representative
symbol" would demand `'c'`. -/
theorem claim_c6_counterexample :
    Option.map (fun t => Link.char (HuffmanTree.root t)) (fromCounts [('b', 2), ('c', 1)]) =
      some 'b' ∧ ('b' : Char) ≠ 'c' := by
  decide

/-- C6 (amended): in every merge step the two smallest links are
extracted — `right` first (the minimum), `left` second — and replaced
by an internal node whose weight is their `u32` sum and whose
tie-break symbol is the *second-smallest* (larger-weight, on ties
lexicographically larger) child's representative symbol, i.e. the left
child's, not the smaller-weight child's. -/
theorem claim_c6_merge_step_amended {fuel : Nat} {links rest1 rest2 : List Link}
    {right left : Link}
    (h1 : popMin links = some (right, rest1))
    (h2 : popMin rest1 = some (left, rest2)) :
    buildLoop (fuel + 1) links =
      buildLoop fuel
        (Link.node ((left.weight + right.weight) % u32Mod) left right left.char :: rest2) ∧
    (∀ x ∈ links, ¬ keyLt (keyOf x) (keyOf right)) ∧
    (∀ x ∈ rest1, ¬ keyLt (keyOf x) (keyOf left)) ∧
    ¬ keyLt (keyOf left) (keyOf right) := by
  refine ⟨buildLoop_popMerge h1 h2, popMin_min h1, popMin_min h2, ?_⟩
  exact popMin_min h1 left
    ((popMin_perm h1).mem_iff.mpr (List.mem_cons_of_mem _ (popMin_mem h2)))

theorem claim_c6_merge_step_amended_witness :
    popMin [Link.leaf 2 'b', Link.leaf 1 'c'] =
      some (Link.leaf 1 'c', [Link.leaf 2 'b']) ∧
    popMin [Link.leaf 2 'b'] = some (Link.leaf 2 'b', []) ∧
    (buildLoop 2 [Link.leaf 2 'b', Link.leaf 1 'c'] =
        buildLoop 1 [Link.node 3 (Link.leaf 2 'b') (Link.leaf 1 'c') 'b'] ∧
      (∀ x ∈ [Link.leaf 2 'b', Link.leaf 1 'c'],
        ¬ keyLt (keyOf x) (keyOf (Link.leaf 1 'c'))) ∧
      (∀ x ∈ [Link.leaf 2 'b'], ¬ keyLt (keyOf x) (keyOf (Link.leaf 2 'b'))) ∧
      ¬ keyLt (keyOf (Link.leaf 2 'b')) (keyOf (Link.leaf 1 'c'))) :=
  ⟨by decide, by decide,
    @claim_c6_merge_step_amended 1 [Link.leaf 2 'b', Link.leaf 1 'c'] [Link.leaf 2 'b'] []
      (Link.leaf 1 'c') (Link.leaf 2 'b') (by decide) (by decide)⟩

/-- C7: for every Huffman tree, the dictionary produced by
`build_dictionary` is prefix-free — no symbol's code is a prefix of
(or equal to) a different symbol's code. -/
theorem claim_c7_prefix_free (t : HuffmanTree) (c₁ c₂ : Char) (code₁ code₂ : List Bool)
    (hne : c₁ ≠ c₂)
    (h₁ : buildDictionary t c₁ = some code₁)
    (h₂ : buildDictionary t c₂ = some code₂) :
    ¬ List.IsPrefix code₁ code₂ := by
  intro hpre
  obtain ⟨w₁, hw₁⟩ := buildDictionary_sound t c₁ code₁ h₁
  obtain ⟨w₂, hw₂⟩ := buildDictionary_sound t c₂ code₂ h₂
  obtain ⟨tail, rfl⟩ := hpre
  rw [walk_append, hw₁] at hw₂
  cases tail with
  | nil =>
    simp only [Option.bind_eq_bind, Option.some_bind, walk, Option.some.injEq,
      Link.leaf.injEq] at hw₂
    exact hne hw₂.2
  | cons b bs =>
    simp [walk] at hw₂

theorem claim_c7_prefix_free_witness :
    (('b' : Char) ≠ 'c') ∧
    buildDictionary
      ⟨Link.node 7 (Link.leaf 4 'a') (Link.node 3 (Link.leaf 2 'b') (Link.leaf 1 'c') 'b') 'a',
        [('a', 4), ('b', 2), ('c', 1)]⟩ 'b' = some [true, false] ∧
    buildDictionary
      ⟨Link.node 7 (Link.leaf 4 'a') (Link.node 3 (Link.leaf 2 'b') (Link.leaf 1 'c') 'b') 'a',
        [('a', 4), ('b', 2), ('c', 1)]⟩ 'c' = some [true, true] ∧
    ¬ List.IsPrefix [true, false] [true, true] :=
  ⟨by decide, by decide, by decide,
    claim_c7_prefix_free
      ⟨Link.node 7 (Link.leaf 4 'a') (Link.node 3 (Link.leaf 2 'b') (Link.leaf 1 'c') 'b') 'a',
        [('a', 4), ('b', 2), ('c', 1)]⟩
      'b' 'c' [true, false] [true, true] (by decide) (by decide) (by decide)⟩

/-- C8: for every tree built by `from_counts` from a non-empty table
(whose total count fits in `u32`, so no weight addition wraps), the
root weight equals the sum of all leaf weights, which equals the total
symbol count, and the leaves are exactly the table's symbols with
their counts. -/
theorem flatMap_leavesOf_leaves (es : List (Char × Nat)) :
    (es.map (fun p => Link.leaf p.2 p.1)).flatMap leavesOf =
      es.map (fun p => Link.leaf p.2 p.1) := by
  induction es with
  | nil => rfl
  | cons e es ih => simp [leavesOf, ih]

theorem claim_c8_weight_conservation (entries : List (Char × Nat)) (t : HuffmanTree)
    (h : fromCounts entries = some t)
    (hbound : (entries.map Prod.snd).sum < u32Mod) :
    t.root.weight = (entries.map Prod.snd).sum ∧
    ((leavesOf t.root).map Link.weight).sum = (entries.map Prod.snd).sum ∧
    (leavesOf t.root).Perm (entries.map (fun p => Link.leaf p.2 p.1)) := by
  simp only [fromCounts, Option.map_eq_some'] at h
  obtain ⟨root, hbuild, hmk⟩ := h
  have hroot : t.root = root := by rw [← hmk]
  subst hroot
  have hcons : ∀ x ∈ entries.map (fun p => Link.leaf p.2 p.1), consistent x := by
    intro x hx
    obtain ⟨p, _, rfl⟩ := List.mem_map.mp hx
    trivial
  have hsum : ((entries.map (fun p => Link.leaf p.2 p.1)).map leafSum).sum =
      (entries.map Prod.snd).sum := by
    rw [List.map_map]
    rfl
  obtain ⟨hc, hs, hl⟩ := buildLoop_conserves _ _ t.root hbuild hcons
    (by rw [hsum]; exact hbound)
  rw [flatMap_leavesOf_leaves entries] at hl
  refine ⟨?_, ?_, hl⟩
  · rw [consistent_weight hc, hs, hsum]
  · have hw := (hl.map Link.weight).sum_eq
    rw [hw, List.map_map]
    rfl

theorem claim_c8_weight_conservation_witness :
    fromCounts [('a', 4), ('b', 2), ('c', 1)] =
      some ⟨Link.node 7 (Link.leaf 4 'a') (Link.node 3 (Link.leaf 2 'b') (Link.leaf 1 'c') 'b') 'a',
        [('a', 4), ('b', 2), ('c', 1)]⟩ ∧
    (([(('a' : Char), (4 : Nat)), ('b', 2), ('c', 1)]).map Prod.snd).sum < u32Mod ∧
    ((⟨Link.node 7 (Link.leaf 4 'a') (Link.node 3 (Link.leaf 2 'b') (Link.leaf 1 'c') 'b') 'a',
        [('a', 4), ('b', 2), ('c', 1)]⟩ : HuffmanTree).root.weight =
        (([(('a' : Char), (4 : Nat)), ('b', 2), ('c', 1)]).map Prod.snd).sum ∧
      ((leavesOf (⟨Link.node 7 (Link.leaf 4 'a')
            (Link.node 3 (Link.leaf 2 'b') (Link.leaf 1 'c') 'b') 'a',
          [('a', 4), ('b', 2), ('c', 1)]⟩ : HuffmanTree).root).map Link.weight).sum =
        (([(('a' : Char), (4 : Nat)), ('b', 2), ('c', 1)]).map Prod.snd).sum ∧
      (leavesOf (⟨Link.node 7 (Link.leaf 4 'a')
            (Link.node 3 (Link.leaf 2 'b') (Link.leaf 1 'c') 'b') 'a',
          [('a', 4), ('b', 2), ('c', 1)]⟩ : HuffmanTree).root).Perm
        (([(('a' : Char), (4 : Nat)), ('b', 2), ('c', 1)]).map
          (fun p => Link.leaf p.2 p.1))) :=
  ⟨by decide, by decide,
    claim_c8_weight_conservation [('a', 4), ('b', 2), ('c', 1)] _ (by decide) (by decide)⟩

/-- C9: in every merge the smallest link becomes the right child and
the second-smallest the left child, so in every tree `from_counts`
builds, each internal node's right child does not exceed its left
child in the `(weight, symbol)` order; concretely, the most frequent
symbol of `"aaaabbc"` sits on the left with code `0`. -/
theorem claim_c9_smallest_goes_right :
    (∀ (entries : List (Char × Nat)) (t : HuffmanTree),
      fromCounts entries = some t → childOrder t.root) ∧
    (fromCounts (countChars ['a', 'a', 'a', 'a', 'b', 'b', 'c'])).bind
        (fun t => buildDictionary t 'a') = some [false] := by
  constructor
  · intro entries t h
    simp only [fromCounts, Option.map_eq_some'] at h
    obtain ⟨root, hbuild, hmk⟩ := h
    have hroot : t.root = root := by rw [← hmk]
    rw [hroot]
    refine buildLoop_childOrder _ _ root hbuild ?_
    intro x hx
    obtain ⟨p, _, rfl⟩ := List.mem_map.mp hx
    trivial
  · decide

theorem claim_c9_smallest_goes_right_witness :
    fromCounts [('a', 4), ('b', 2), ('c', 1)] =
      some ⟨Link.node 7 (Link.leaf 4 'a') (Link.node 3 (Link.leaf 2 'b') (Link.leaf 1 'c') 'b') 'a',
        [('a', 4), ('b', 2), ('c', 1)]⟩ ∧
    childOrder (⟨Link.node 7 (Link.leaf 4 'a')
        (Link.node 3 (Link.leaf 2 'b') (Link.leaf 1 'c') 'b') 'a',
      [('a', 4), ('b', 2), ('c', 1)]⟩ : HuffmanTree).root :=
  ⟨by decide,
    claim_c9_smallest_goes_right.1 [('a', 4), ('b', 2), ('c', 1)] _ (by decide)⟩

/-- C10: whenever `decode` succeeds its output is non-empty, because
after the bit loop it unconditionally emits the leaf at the final walk
position; and on a lone-leaf tree with zero usable data bits (any pad
byte equal to eight times the payload length) it emits the root's
symbol exactly once. -/
theorem claim_c10_decode_always_emits :
    (∀ (input : List Nat) (out : List Char), decode input = DResult.ok out → out ≠ []) ∧
    (∀ (pad : Nat) (payload : List Nat), pad = 8 * payload.length →
      decode (0 :: 0 :: 0 :: 1 :: 97 :: 0 :: 0 :: 0 :: 4 :: pad :: payload) =
        DResult.ok ['a']) :=
  ⟨decode_ok_nonempty, decode_loneLeaf_zero_bits⟩

theorem claim_c10_decode_always_emits_witness :
    ((8 : Nat) = 8 * ([255] : List Nat).length) ∧
    decode [0, 0, 0, 1, 97, 0, 0, 0, 4, 8, 255] = DResult.ok ['a'] ∧
    (['a'] : List Char) ≠ [] :=
  ⟨by decide,
    claim_c10_decode_always_emits.2 8 [255] (by decide),
    claim_c10_decode_always_emits.1 [0, 0, 0, 1, 97, 0, 0, 0, 4, 8, 255] ['a']
      (claim_c10_decode_always_emits.2 8 [255] (by decide))⟩

end Comprust
